import Mathlib

/-!
Shallow embedding of the symNMF C implementation (src/symnmf.c).

Matrices are `List (List α)` over a field; entry access `idx M i j`
returns 0 out of range (the C code never reads out of range, so on the
in-range region the embedding agrees with the source).  The functions
`exp` and `sqrt` from `<math.h>` are abstracted as explicit function
parameters `fexp`, `fsqrt`, instantiated with `Real.exp` / `Real.sqrt`
where a claim needs their analytic properties; the scalar type is ℚ
where a claim only needs exact field arithmetic, so that witnesses can
be checked by `decide`.

Allocation failure (the single error kind of the C code) is modelled by
boolean oracles: one flag per matrix allocation, threaded in the order
the C code performs the allocations.
-/

namespace SymNMF

/-- Entry access for a list-of-lists matrix, defaulting to 0 out of range. -/
def idx {α : Type} [Field α] (M : List (List α)) (i j : ℕ) : α :=
  (M.getD i []).getD j 0

/-- Build an n×p matrix from an entry function. -/
def mkMat {α : Type} [Field α] (n p : ℕ) (f : ℕ → ℕ → α) : List (List α) :=
  (List.range n).map fun i => (List.range p).map fun j => f i j

/-- Sum of `f k` for `k < d`, mirroring a C `for (k = 0; k < d; k++)` accumulation. -/
def loopSum {α : Type} [Field α] (d : ℕ) (f : ℕ → α) : α :=
  ((List.range d).map f).sum

/-- Matrix multiplication of A (n×m) and B (m×p): the triple loop of `matrix_multiply`. -/
def matrix_multiply {α : Type} [Field α] (A B : List (List α)) (n m p : ℕ) :
    List (List α) :=
  mkMat n p fun i j => loopSum m fun k => idx A i k * idx B k j

/-- Transpose of A (n×m), from `transpose_matrix`. -/
def transpose_matrix {α : Type} [Field α] (A : List (List α)) (n m : ℕ) :
    List (List α) :=
  mkMat m n fun i j => idx A j i

/-- Squared Frobenius norm of the difference of A and B (n×k), from
`calculate_frobenius_norm` (note: the C function returns the squared norm). -/
def calculate_frobenius_norm {α : Type} [Field α] (A B : List (List α)) (n k : ℕ) : α :=
  loopSum n fun i => loopSum k fun j => (idx A i j - idx B i j) * (idx A i j - idx B i j)

/-- The n×k restriction copy performed by `copy_matrix(dest, src, n, k)`:
the value held by `dest` afterwards. -/
def copy_matrix {α : Type} [Field α] (src : List (List α)) (n k : ℕ) : List (List α) :=
  mkMat n k fun i j => idx src i j

/-- Squared Euclidean distance between points i and j over d coordinates:
the inner k-loop of `sym`. -/
def sqdist {α : Type} [Field α] (points : List (List α)) (i j d : ℕ) : α :=
  loopSum d fun k => (idx points i k - idx points j k) * (idx points i k - idx points j k)

/-- Similarity matrix from `sym`: zero diagonal, `fexp (-sqdist/2)` off the
diagonal, computed independently for every ordered pair (the naive double loop). -/
def sym {α : Type} [Field α] (fexp : α → α) (points : List (List α)) (n d : ℕ) :
    List (List α) :=
  mkMat n n fun i j => if i = j then 0 else fexp (-(sqdist points i j d) / 2)

/-- Row sum of matrix A over columns j < n, as in the degree accumulation loops. -/
def rowSum {α : Type} [Field α] (A : List (List α)) (i n : ℕ) : α :=
  loopSum n fun j => idx A i j

/-- Diagonal degree matrix from `ddg`: rows are calloc-zeroed and only the
diagonal entry accumulates the similarity row sum. -/
def ddg {α : Type} [Field α] (fexp : α → α) (points : List (List α)) (n d : ℕ) :
    List (List α) :=
  mkMat n n fun i j => if i = j then rowSum (sym fexp points n d) i n else 0

/-- Normalized similarity matrix from `norm`: the degree diagonal is computed
as a length-n vector, then every entry is divided by `fsqrt (deg i * deg j)`. -/
def norm {α : Type} [Field α] (fexp fsqrt : α → α) (points : List (List α)) (n d : ℕ) :
    List (List α) :=
  mkMat n n fun i j =>
    idx (sym fexp points n d) i j /
      fsqrt (rowSum (sym fexp points n d) i n * rowSum (sym fexp points n d) j n)

/-- The fixed β of the multiplicative update rule in `update_H`. -/
def beta : ℚ := 1/2

/-- The successful path of `update_H`: value of H after the in-place update
`H[i][j] *= (1 - beta + beta * (WH[i][j]/HHtH[i][j]))`. -/
def update_H_pure (W H : List (List ℚ)) (n k : ℕ) : List (List ℚ) :=
  let WH := matrix_multiply W H n n k
  let Ht := transpose_matrix H n k
  let HHt := matrix_multiply H Ht n k n
  let HHtH := matrix_multiply HHt H n n k
  mkMat n k fun i j => idx H i j * (1 - beta + beta * (idx WH i j / idx HHtH i j))

/-- Iteration cap MAX_ITER of the C code. -/
def MAX_ITER : ℕ := 300

/-- Convergence threshold EPSILON of the C code. -/
def EPSILON : ℚ := 1/10000

/-- One update step as a function on the working matrix. -/
def stepH (W : List (List ℚ)) (n k : ℕ) (H : List (List ℚ)) : List (List ℚ) :=
  update_H_pure W H n k

/-- The main iteration loop of `symnmf` (fuel = remaining iterations):
snapshot, update, stop early when the squared Frobenius delta drops
below EPSILON. -/
def symnmf_loop (W : List (List ℚ)) (n k : ℕ) : ℕ → List (List ℚ) → List (List ℚ)
  | 0, H => H
  | fuel+1, H =>
    let Hnew := update_H_pure W H n k
    if calculate_frobenius_norm Hnew H n k < EPSILON then Hnew
    else symnmf_loop W n k fuel Hnew

/-- The `symnmf` entry point on its success path: copy H into the working
matrix, then run at most MAX_ITER update iterations. -/
def symnmf (W H : List (List ℚ)) (n k : ℕ) : List (List ℚ) :=
  symnmf_loop W n k MAX_ITER (copy_matrix H n k)

/-! Entry-evaluation lemmas. -/

lemma getD_map_range {β : Type} (p : ℕ) (g : ℕ → β) (j : ℕ) (d : β) (hj : j < p) :
    ((List.range p).map g).getD j d = g j := by
  simp [List.getD_eq_getElem?_getD, List.getElem?_map, List.getElem?_range hj]

lemma idx_mkMat {α : Type} [Field α] (n p : ℕ) (f : ℕ → ℕ → α) (i j : ℕ)
    (hi : i < n) (hj : j < p) : idx (mkMat n p f) i j = f i j := by
  unfold idx mkMat
  rw [getD_map_range n _ i [] hi, getD_map_range p _ j 0 hj]

lemma sym_idx {α : Type} [Field α] (fexp : α → α) (points : List (List α)) (n d i j : ℕ)
    (hi : i < n) (hj : j < n) :
    idx (sym fexp points n d) i j =
      if i = j then 0 else fexp (-(sqdist points i j d) / 2) :=
  idx_mkMat n n _ i j hi hj

lemma ddg_idx {α : Type} [Field α] (fexp : α → α) (points : List (List α)) (n d i j : ℕ)
    (hi : i < n) (hj : j < n) :
    idx (ddg fexp points n d) i j =
      if i = j then rowSum (sym fexp points n d) i n else 0 :=
  idx_mkMat n n _ i j hi hj

lemma norm_idx {α : Type} [Field α] (fexp fsqrt : α → α) (points : List (List α))
    (n d i j : ℕ) (hi : i < n) (hj : j < n) :
    idx (norm fexp fsqrt points n d) i j =
      idx (sym fexp points n d) i j /
        fsqrt (rowSum (sym fexp points n d) i n * rowSum (sym fexp points n d) j n) :=
  idx_mkMat n n _ i j hi hj

lemma update_H_pure_idx (W H : List (List ℚ)) (n k i j : ℕ) (hi : i < n) (hj : j < k) :
    idx (update_H_pure W H n k) i j =
      idx H i j * (1 - beta + beta *
        (idx (matrix_multiply W H n n k) i j /
          idx (matrix_multiply (matrix_multiply H (transpose_matrix H n k) n k n) H n n k) i j)) :=
  idx_mkMat n k _ i j hi hj

lemma copy_matrix_idx {α : Type} [Field α] (src : List (List α)) (n k i j : ℕ)
    (hi : i < n) (hj : j < k) : idx (copy_matrix src n k) i j = idx src i j :=
  idx_mkMat n k _ i j hi hj

lemma sqdist_comm {α : Type} [Field α] (points : List (List α)) (i j d : ℕ) :
    sqdist points i j d = sqdist points j i d := by
  unfold sqdist loopSum
  have h : (fun t => (idx points i t - idx points j t) * (idx points i t - idx points j t))
      = fun t => (idx points j t - idx points i t) * (idx points j t - idx points i t) := by
    funext t
    ring
  rw [h]

lemma sym_symm_entry {α : Type} [Field α] (fexp : α → α) (points : List (List α))
    (n d i j : ℕ) (hi : i < n) (hj : j < n) :
    idx (sym fexp points n d) i j = idx (sym fexp points n d) j i := by
  rw [sym_idx fexp points n d i j hi hj, sym_idx fexp points n d j i hj hi,
    sqdist_comm points j i d]
  by_cases h : i = j
  · simp [h]
  · rw [if_neg h, if_neg (Ne.symm h)]

lemma sym_diag_zero {α : Type} [Field α] (fexp : α → α) (points : List (List α))
    (n d i : ℕ) (hi : i < n) : idx (sym fexp points n d) i i = 0 := by
  rw [sym_idx fexp points n d i i hi hi]
  simp

/-- C3: the similarity matrix produced by `sym` is symmetric, has zero
diagonal, and off the diagonal each entry is `fexp` applied to minus half
the squared Euclidean distance of the two points, exactly as the naive
double loop computes it. -/
theorem sym_symmetric_zero_diag_formula {α : Type} [Field α] (fexp : α → α)
    (points : List (List α)) (n d i j : ℕ) (hi : i < n) (hj : j < n) :
    idx (sym fexp points n d) i j = idx (sym fexp points n d) j i ∧
    idx (sym fexp points n d) i i = 0 ∧
    (i ≠ j → idx (sym fexp points n d) i j = fexp (-(sqdist points i j d) / 2)) := by
  refine ⟨sym_symm_entry fexp points n d i j hi hj, sym_diag_zero fexp points n d i hi, ?_⟩
  intro h
  rw [sym_idx fexp points n d i j hi hj]
  simp [h]

/-- Witness for C3 at a concrete input. -/
theorem sym_symmetric_zero_diag_formula_witness :
    idx (sym (fun x => x + 3) ([[1, 2], [0, 5]] : List (List ℚ)) 2 2) 0 1 =
      idx (sym (fun x => x + 3) ([[1, 2], [0, 5]] : List (List ℚ)) 2 2) 1 0 ∧
    idx (sym (fun x => x + 3) ([[1, 2], [0, 5]] : List (List ℚ)) 2 2) 0 0 = 0 ∧
    ((0 : ℕ) ≠ 1 → idx (sym (fun x => x + 3) ([[1, 2], [0, 5]] : List (List ℚ)) 2 2) 0 1 =
      (fun x => x + 3) (-(sqdist ([[1, 2], [0, 5]] : List (List ℚ)) 0 1 2) / 2)) :=
  sym_symmetric_zero_diag_formula (fun x => x + 3) [[1, 2], [0, 5]] 2 2 0 1
    (by decide) (by decide)

/-- C5: the matrix produced by `ddg` is diagonal (all off-diagonal entries
exactly 0) and its diagonal entry i is the row sum of row i of the
similarity matrix produced by `sym`. -/
theorem ddg_diagonal_row_sums {α : Type} [Field α] (fexp : α → α)
    (points : List (List α)) (n d i j : ℕ) (hi : i < n) (hj : j < n) :
    (i ≠ j → idx (ddg fexp points n d) i j = 0) ∧
    idx (ddg fexp points n d) i i = rowSum (sym fexp points n d) i n := by
  refine ⟨fun h => ?_, ?_⟩
  · rw [ddg_idx fexp points n d i j hi hj]
    simp [h]
  · rw [ddg_idx fexp points n d i i hi hi]
    simp

/-- Witness for C5 at a concrete input. -/
theorem ddg_diagonal_row_sums_witness :
    ((0 : ℕ) ≠ 1 → idx (ddg (fun x => x + 3) ([[1], [2]] : List (List ℚ)) 2 1) 0 1 = 0) ∧
    idx (ddg (fun x => x + 3) ([[1], [2]] : List (List ℚ)) 2 1) 0 0 =
      rowSum (sym (fun x => x + 3) ([[1], [2]] : List (List ℚ)) 2 1) 0 2 :=
  ddg_diagonal_row_sums (fun x => x + 3) [[1], [2]] 2 1 0 1 (by decide) (by decide)

/-- C4: every entry of the matrix produced by `norm` is the corresponding
similarity entry divided by `fsqrt` of the product of the two row-sum
degrees; the result is symmetric and its diagonal entries are 0. -/
theorem norm_formula_symmetric_zero_diag {α : Type} [Field α] (fexp fsqrt : α → α)
    (points : List (List α)) (n d i j : ℕ) (hi : i < n) (hj : j < n) :
    idx (norm fexp fsqrt points n d) i j =
      idx (sym fexp points n d) i j /
        fsqrt (rowSum (sym fexp points n d) i n * rowSum (sym fexp points n d) j n) ∧
    idx (norm fexp fsqrt points n d) i j = idx (norm fexp fsqrt points n d) j i ∧
    idx (norm fexp fsqrt points n d) i i = 0 := by
  refine ⟨norm_idx fexp fsqrt points n d i j hi hj, ?_, ?_⟩
  · rw [norm_idx fexp fsqrt points n d i j hi hj,
      norm_idx fexp fsqrt points n d j i hj hi,
      mul_comm (rowSum (sym fexp points n d) j n) (rowSum (sym fexp points n d) i n)]
    rw [sym_symm_entry fexp points n d i j hi hj]
  · rw [norm_idx fexp fsqrt points n d i i hi hi]
    rw [sym_diag_zero fexp points n d i hi]
    simp

/-- Witness for C4 at a concrete input. -/
theorem norm_formula_symmetric_zero_diag_witness :
    idx (norm (fun x => x + 3) (fun x => x) ([[1], [2]] : List (List ℚ)) 2 1) 0 1 =
      idx (sym (fun x => x + 3) ([[1], [2]] : List (List ℚ)) 2 1) 0 1 /
        (fun x => x) (rowSum (sym (fun x => x + 3) ([[1], [2]] : List (List ℚ)) 2 1) 0 2 *
          rowSum (sym (fun x => x + 3) ([[1], [2]] : List (List ℚ)) 2 1) 1 2) ∧
    idx (norm (fun x => x + 3) (fun x => x) ([[1], [2]] : List (List ℚ)) 2 1) 0 1 =
      idx (norm (fun x => x + 3) (fun x => x) ([[1], [2]] : List (List ℚ)) 2 1) 1 0 ∧
    idx (norm (fun x => x + 3) (fun x => x) ([[1], [2]] : List (List ℚ)) 2 1) 0 0 = 0 :=
  norm_formula_symmetric_zero_diag (fun x => x + 3) (fun x => x) [[1], [2]] 2 1 0 1
    (by decide) (by decide)

/-! The multiplicative update and the main loop. -/

lemma update_entry_zero (W H : List (List ℚ)) (n k i j : ℕ) (hi : i < n) (hj : j < k)
    (h0 : idx H i j = 0) : idx (update_H_pure W H n k) i j = 0 := by
  rw [update_H_pure_idx W H n k i j hi hj, h0, zero_mul]

lemma symnmf_loop_zero (W : List (List ℚ)) (n k i j : ℕ) (hi : i < n) (hj : j < k) :
    ∀ fuel H, idx H i j = 0 → idx (symnmf_loop W n k fuel H) i j = 0 := by
  intro fuel
  induction fuel with
  | zero => intro H h0; exact h0
  | succ fuel ih =>
    intro H h0
    have hnew : idx (update_H_pure W H n k) i j = 0 := update_entry_zero W H n k i j hi hj h0
    simp only [symnmf_loop]
    split
    · exact hnew
    · exact ih _ hnew

/-- C1: one multiplicative update step replaces every entry by
`H[i][j] * ((1 - beta) + beta * (WH[i][j] / HHtH[i][j]))` with `beta = 1/2`,
where `WH = W*H` and `HHtH = (H*transpose(H))*H`; and for
`W = [[0,1],[1,0]]`, `H0 = identity` (n = k = 2) the entry (0,0) after one
step equals `1 * (0.5 + 0.5 * (WH[0][0] / HHtH[0][0]))`. -/
theorem update_rule_formula_and_trace :
    (∀ (W H : List (List ℚ)) (n k i j : ℕ), i < n → j < k →
      idx (update_H_pure W H n k) i j =
        idx H i j * (1 - beta + beta *
          (idx (matrix_multiply W H n n k) i j /
            idx (matrix_multiply (matrix_multiply H (transpose_matrix H n k) n k n) H n n k) i j))) ∧
    idx (update_H_pure [[0, 1], [1, 0]] [[1, 0], [0, 1]] 2 2) 0 0 =
      1 * (1/2 + 1/2 *
        (idx (matrix_multiply [[0, 1], [1, 0]] [[1, 0], [0, 1]] 2 2 2) 0 0 /
          idx (matrix_multiply
            (matrix_multiply [[1, 0], [0, 1]] (transpose_matrix [[1, 0], [0, 1]] 2 2) 2 2 2)
            [[1, 0], [0, 1]] 2 2 2) 0 0)) := by
  constructor
  · intro W H n k i j hi hj
    exact update_H_pure_idx W H n k i j hi hj
  · rw [update_H_pure_idx [[0, 1], [1, 0]] [[1, 0], [0, 1]] 2 2 0 0 (by norm_num) (by norm_num)]
    have h1 : idx ([[1, 0], [0, 1]] : List (List ℚ)) 0 0 = 1 := rfl
    rw [h1, beta]
    norm_num

/-- Witness for C1 at a concrete input. -/
theorem update_rule_formula_and_trace_witness :
    idx (update_H_pure [[2], [3]] [[5], [7]] 2 1) 0 0 =
      idx ([[5], [7]] : List (List ℚ)) 0 0 * (1 - beta + beta *
        (idx (matrix_multiply [[2], [3]] [[5], [7]] 2 2 1) 0 0 /
          idx (matrix_multiply
            (matrix_multiply [[5], [7]] (transpose_matrix [[5], [7]] 2 1) 2 1 2)
            [[5], [7]] 2 2 1) 0 0)) :=
  update_rule_formula_and_trace.1 [[2], [3]] [[5], [7]] 2 1 0 0 (by decide) (by decide)

/-- C8: an entry of H that is exactly zero stays exactly zero through one
multiplicative update step, and hence the corresponding entry of the
matrix returned by `symnmf` is also exactly zero. -/
theorem update_zero_entry_fixed_point (W H : List (List ℚ)) (n k i j : ℕ)
    (hi : i < n) (hj : j < k) (h0 : idx H i j = 0) :
    idx (update_H_pure W H n k) i j = 0 ∧ idx (symnmf W H n k) i j = 0 := by
  refine ⟨update_entry_zero W H n k i j hi hj h0, ?_⟩
  unfold symnmf
  apply symnmf_loop_zero W n k i j hi hj
  rw [copy_matrix_idx H n k i j hi hj]
  exact h0

/-- Witness for C8 at a concrete input. -/
theorem update_zero_entry_fixed_point_witness :
    idx (update_H_pure [[2]] [[0]] 1 1) 0 0 = 0 ∧ idx (symnmf [[2]] [[0]] 1 1) 0 0 = 0 :=
  update_zero_entry_fixed_point [[2]] [[0]] 1 1 0 0 (by decide) (by decide) rfl

lemma symnmf_loop_spec (W : List (List ℚ)) (n k : ℕ) :
    ∀ fuel H, ∃ m, 1 ≤ m ∧ m ≤ fuel + 1 ∧
      symnmf_loop W n k (fuel + 1) H = (stepH W n k)^[m] H ∧
      (calculate_frobenius_norm ((stepH W n k)^[m] H) ((stepH W n k)^[m-1] H) n k < EPSILON
        ∨ m = fuel + 1) ∧
      (∀ m2, 1 ≤ m2 → m2 < m →
        ¬ calculate_frobenius_norm ((stepH W n k)^[m2] H) ((stepH W n k)^[m2-1] H) n k
          < EPSILON) := by
  intro fuel
  induction fuel with
  | zero =>
    intro H
    refine ⟨1, le_refl 1, le_refl 1, ?_, ?_, ?_⟩
    · simp only [symnmf_loop, Function.iterate_one, stepH]
      split <;> rfl
    · right; rfl
    · intro m2 h1 h2; omega
  | succ fuel ih =>
    intro H
    by_cases hconv :
        calculate_frobenius_norm (update_H_pure W H n k) H n k < EPSILON
    · refine ⟨1, le_refl 1, by omega, ?_, ?_, ?_⟩
      · simp only [symnmf_loop, Function.iterate_one, stepH, if_pos hconv]
      · left
        simpa [stepH] using hconv
      · intro m2 h1 h2; omega
    · obtain ⟨m, hm1, hmle, heq, hcond, hmin⟩ := ih (update_H_pure W H n k)
      refine ⟨m + 1, by omega, by omega, ?_, ?_, ?_⟩
      · rw [Function.iterate_succ_apply]
        rw [show symnmf_loop W n k (fuel + 1 + 1) H
            = symnmf_loop W n k (fuel + 1) (update_H_pure W H n k) from by
          simp only [symnmf_loop, if_neg hconv]]
        exact heq
      · rcases hcond with hlt | hend
        · left
          have e1 : (stepH W n k)^[m + 1] H = (stepH W n k)^[m] (update_H_pure W H n k) :=
            Function.iterate_succ_apply (stepH W n k) m H
          have e2 : (stepH W n k)^[m + 1 - 1] H
              = (stepH W n k)^[m - 1] (update_H_pure W H n k) := by
            have : m + 1 - 1 = (m - 1) + 1 := by omega
            rw [this, Function.iterate_succ_apply]
            rfl
          rw [e1, e2]
          exact hlt
        · right; omega
      · intro m2 h21 h22
        rcases Nat.lt_or_ge m2 2 with hm2 | hm2
        · have : m2 = 1 := by omega
          subst this
          simpa [stepH] using hconv
        · have h1 : (stepH W n k)^[m2] H = (stepH W n k)^[m2 - 1] (update_H_pure W H n k) := by
            have : m2 = (m2 - 1) + 1 := by omega
            rw [this, Function.iterate_succ_apply]
            have e : m2 - 1 + 1 - 1 = m2 - 1 := by omega
            rw [e]
            rfl
          have h2 : (stepH W n k)^[m2 - 1] H
              = (stepH W n k)^[m2 - 1 - 1] (update_H_pure W H n k) := by
            have : m2 - 1 = (m2 - 1 - 1) + 1 := by omega
            rw [this, Function.iterate_succ_apply]
            have e : m2 - 1 - 1 + 1 - 1 = m2 - 1 - 1 := by omega
            rw [e]
            rfl
          rw [h1, h2]
          exact hmin (m2 - 1) (by omega) (by omega)

/-- C2: `symnmf` returns the m-th iterate of the update step applied to the
copied initial H for some m with 1 ≤ m ≤ 300; the loop stops at the first m
whose squared Frobenius delta from the previous iterate is below EPSILON,
and the returned iterate either satisfies that convergence test or m = 300;
both exits are values, not errors. -/
theorem symnmf_terminates_within_300 (W H : List (List ℚ)) (n k : ℕ) :
    ∃ m, 1 ≤ m ∧ m ≤ MAX_ITER ∧
      symnmf W H n k = (stepH W n k)^[m] (copy_matrix H n k) ∧
      (calculate_frobenius_norm ((stepH W n k)^[m] (copy_matrix H n k))
          ((stepH W n k)^[m-1] (copy_matrix H n k)) n k < EPSILON ∨ m = MAX_ITER) ∧
      (∀ m2, 1 ≤ m2 → m2 < m →
        ¬ calculate_frobenius_norm ((stepH W n k)^[m2] (copy_matrix H n k))
            ((stepH W n k)^[m2-1] (copy_matrix H n k)) n k < EPSILON) := by
  obtain ⟨m, hm1, hmle, heq, hcond, hmin⟩ := symnmf_loop_spec W n k 299 (copy_matrix H n k)
  exact ⟨m, hm1, by simpa [MAX_ITER] using hmle, heq,
    by simpa [MAX_ITER] using hcond, hmin⟩

/-! Range and positivity of the similarity entries, over ℝ with the real
exponential standing for the C library function `exp`. -/

lemma loopSum_succ {α : Type} [Field α] (d : ℕ) (f : ℕ → α) :
    loopSum (d + 1) f = loopSum d f + f d := by
  unfold loopSum
  rw [List.range_succ]
  simp

lemma loopSum_nonneg (d : ℕ) (f : ℕ → ℝ) (h : ∀ t, 0 ≤ f t) : 0 ≤ loopSum d f := by
  induction d with
  | zero => simp [loopSum]
  | succ d ih =>
    rw [loopSum_succ]
    have := h d
    linarith

lemma loopSum_eq_zero_iff (d : ℕ) (f : ℕ → ℝ) (h : ∀ t, 0 ≤ f t) :
    loopSum d f = 0 ↔ ∀ t < d, f t = 0 := by
  induction d with
  | zero => simp [loopSum]
  | succ d ih =>
    rw [loopSum_succ]
    constructor
    · intro hz t ht
      have hd : 0 ≤ loopSum d f := loopSum_nonneg d f h
      have hfd : 0 ≤ f d := h d
      have h1 : loopSum d f = 0 := by linarith
      have h2 : f d = 0 := by linarith
      rcases Nat.lt_or_ge t d with htd | htd
      · exact (ih.mp h1) t htd
      · have : t = d := by omega
        rw [this]
        exact h2
    · intro hz
      have h1 : loopSum d f = 0 := ih.mpr fun t ht => hz t (by omega)
      have h2 : f d = 0 := hz d (by omega)
      rw [h1, h2, add_zero]

lemma sqdist_nonneg (points : List (List ℝ)) (i j d : ℕ) : 0 ≤ sqdist points i j d :=
  loopSum_nonneg d _ fun _ => mul_self_nonneg _

lemma sqdist_eq_zero_iff (points : List (List ℝ)) (i j d : ℕ) :
    sqdist points i j d = 0 ↔ ∀ t < d, idx points i t = idx points j t := by
  unfold sqdist
  rw [loopSum_eq_zero_iff d _ fun t => mul_self_nonneg _]
  constructor
  · intro h t ht
    have := h t ht
    have hsub : idx points i t - idx points j t = 0 := by
      exact mul_self_eq_zero.mp this
    linarith
  · intro h t ht
    rw [h t ht]
    ring

/-- C6: every off-diagonal entry of the similarity matrix lies in (0, 1],
and it equals 1 exactly when the two points agree on every coordinate. -/
theorem sym_entries_in_unit_interval (points : List (List ℝ)) (n d i j : ℕ)
    (hi : i < n) (hj : j < n) (hij : i ≠ j) :
    idx (sym Real.exp points n d) i j ∈ Set.Ioc (0 : ℝ) 1 ∧
    (idx (sym Real.exp points n d) i j = 1 ↔ ∀ t < d, idx points i t = idx points j t) := by
  rw [sym_idx Real.exp points n d i j hi hj, if_neg hij]
  have hs : 0 ≤ sqdist points i j d := sqdist_nonneg points i j d
  refine ⟨⟨Real.exp_pos _, ?_⟩, ?_⟩
  · rw [Real.exp_le_one_iff]
    linarith
  · rw [Real.exp_eq_one_iff]
    constructor
    · intro h
      have : sqdist points i j d = 0 := by linarith
      exact (sqdist_eq_zero_iff points i j d).mp this
    · intro h
      have : sqdist points i j d = 0 := (sqdist_eq_zero_iff points i j d).mpr h
      rw [this]
      ring

/-- Witness for C6 at a concrete input. -/
theorem sym_entries_in_unit_interval_witness :
    idx (sym Real.exp ([[0], [0]] : List (List ℝ)) 2 1) 0 1 ∈ Set.Ioc (0 : ℝ) 1 ∧
    (idx (sym Real.exp ([[0], [0]] : List (List ℝ)) 2 1) 0 1 = 1 ↔
      ∀ t < 1, idx ([[0], [0]] : List (List ℝ)) 0 t = idx ([[0], [0]] : List (List ℝ)) 1 t) :=
  sym_entries_in_unit_interval [[0], [0]] 2 1 0 1 (by decide) (by decide) (by decide)

/-! Allocation-failure model: each matrix allocation of the C code gets a
boolean oracle flag, consulted in the order the C code allocates; a false
flag makes the function take its early-return failure path, as the source
does when `malloc`/`calloc` returns NULL. -/

/-- The `sym` operation with its similarity-matrix allocation modelled. -/
def sym_c {α : Type} [Field α] (aSym : Bool) (fexp : α → α) (points : List (List α))
    (n d : ℕ) : Option (List (List α)) :=
  if aSym = false then none else some (sym fexp points n d)

/-- The `ddg` operation: allocation of the similarity temporary, then of the
degree matrix. -/
def ddg_c {α : Type} [Field α] (aSym aDeg : Bool) (fexp : α → α) (points : List (List α))
    (n d : ℕ) : Option (List (List α)) :=
  match sym_c aSym fexp points n d with
  | none => none
  | some A =>
    if aDeg = false then none
    else some (mkMat n n fun i j => if i = j then rowSum A i n else 0)

/-- The `norm` operation: allocation of the similarity temporary, the degree
vector and the normalized matrix; the division by `fsqrt (deg i * deg j)` is
performed unguarded, exactly as in the source. -/
def norm_c {α : Type} [Field α] (aSym aDeg aNorm : Bool) (fexp fsqrt : α → α)
    (points : List (List α)) (n d : ℕ) : Option (List (List α)) :=
  match sym_c aSym fexp points n d with
  | none => none
  | some A =>
    if aDeg = false then none
    else if aNorm = false then none
    else some (mkMat n n fun i j => idx A i j / fsqrt (rowSum A i n * rowSum A j n))

/-- The `update_H` function with its four temporary allocations (WH, Ht,
HHt, HHtH) modelled; returns the value held by the caller's H array after
the call together with the success flag the C function returns. -/
def update_H_c (aWH aHt aHHt aHHtH : Bool) (W H : List (List ℚ)) (n k : ℕ) :
    List (List ℚ) × Bool :=
  if aWH = false then (H, false)
  else
    let WH := matrix_multiply W H n n k
    if aHt = false then (H, false)
    else
      let Ht := transpose_matrix H n k
      if aHHt = false then (H, false)
      else
        let HHt := matrix_multiply H Ht n k n
        if aHHtH = false then (H, false)
        else
          let HHtH := matrix_multiply HHt H n n k
          (mkMat n k fun i j => idx H i j * (1 - beta + beta * (idx WH i j / idx HHtH i j)),
            true)

/-- The `symnmf` main loop with one flag per iteration: `upd t` tells
whether the `update_H` call of iteration t succeeds (the C caller only
observes that single success bit of `update_H`). -/
def symnmf_loop_c (W : List (List ℚ)) (n k : ℕ) (upd : ℕ → Bool) :
    ℕ → ℕ → List (List ℚ) → Option (List (List ℚ))
  | 0, _, H => some H
  | fuel+1, t, H =>
    if upd t = false then none
    else
      let Hnew := update_H_pure W H n k
      if calculate_frobenius_norm Hnew H n k < EPSILON then some Hnew
      else symnmf_loop_c W n k upd fuel (t+1) Hnew

/-- The `symnmf` entry point with the H_prev and result allocations and the
per-iteration update allocations modelled. -/
def symnmf_c (aPrev aRes : Bool) (upd : ℕ → Bool) (W H : List (List ℚ)) (n k : ℕ) :
    Option (List (List ℚ)) :=
  if aPrev = false then none
  else if aRes = false then none
  else symnmf_loop_c W n k upd MAX_ITER 0 (copy_matrix H n k)

lemma symnmf_loop_c_total (W : List (List ℚ)) (n k : ℕ) (upd : ℕ → Bool)
    (hupd : ∀ t2, upd t2 = true) :
    ∀ fuel t H, ∃ M, symnmf_loop_c W n k upd fuel t H = some M := by
  intro fuel
  induction fuel with
  | zero => intro t H; exact ⟨H, rfl⟩
  | succ fuel ih =>
    intro t H
    simp only [symnmf_loop_c, hupd t, Bool.true_eq_false, if_false]
    split
    · exact ⟨_, rfl⟩
    · exact ih (t+1) _

lemma symnmf_loop_c_none (W : List (List ℚ)) (n k : ℕ) (upd : ℕ → Bool) :
    ∀ fuel t H, symnmf_loop_c W n k upd fuel t H = none → ∃ t2, upd t2 = false := by
  intro fuel
  induction fuel with
  | zero => intro t H h; exact absurd h (by simp [symnmf_loop_c])
  | succ fuel ih =>
    intro t H h
    by_cases hu : upd t = false
    · exact ⟨t, hu⟩
    · have hu2 : upd t = true := by simpa using hu
      simp only [symnmf_loop_c, hu2, Bool.true_eq_false, if_false] at h
      split at h
      · exact absurd h (by simp)
      · exact ih (t+1) _ h

/-- C7: each operation signals failure exactly when one of its modelled
allocations fails; the data (in particular any zero denominator) never
triggers the failure signal, and with all allocations succeeding every
operation returns a value for every input. -/
theorem failure_iff_allocation_failure :
    (∀ (aSym : Bool) (fexp : ℚ → ℚ) (points : List (List ℚ)) (n d : ℕ),
      sym_c aSym fexp points n d = none ↔ aSym = false) ∧
    (∀ (aSym aDeg : Bool) (fexp : ℚ → ℚ) (points : List (List ℚ)) (n d : ℕ),
      ddg_c aSym aDeg fexp points n d = none ↔ (aSym = false ∨ aDeg = false)) ∧
    (∀ (aSym aDeg aNorm : Bool) (fexp fsqrt : ℚ → ℚ) (points : List (List ℚ)) (n d : ℕ),
      norm_c aSym aDeg aNorm fexp fsqrt points n d = none ↔
        (aSym = false ∨ aDeg = false ∨ aNorm = false)) ∧
    (∀ (aPrev aRes : Bool) (upd : ℕ → Bool) (W H : List (List ℚ)) (n k : ℕ),
      ((∀ t, upd t = true) → aPrev = true → aRes = true →
        ∃ M, symnmf_c aPrev aRes upd W H n k = some M) ∧
      (symnmf_c aPrev aRes upd W H n k = none →
        aPrev = false ∨ aRes = false ∨ ∃ t, upd t = false)) := by
  refine ⟨?_, ?_, ?_, ?_⟩
  · intro aSym fexp points n d
    cases aSym <;> simp [sym_c]
  · intro aSym aDeg fexp points n d
    cases aSym <;> cases aDeg <;> simp [ddg_c, sym_c]
  · intro aSym aDeg aNorm fexp fsqrt points n d
    cases aSym <;> cases aDeg <;> cases aNorm <;> simp [norm_c, sym_c]
  · intro aPrev aRes upd W H n k
    constructor
    · intro hupd hP hR
      subst hP; subst hR
      simp only [symnmf_c, Bool.true_eq_false, if_false]
      exact symnmf_loop_c_total W n k upd hupd MAX_ITER 0 (copy_matrix H n k)
    · intro hnone
      cases aPrev with
      | false => exact Or.inl rfl
      | true =>
        cases aRes with
        | false => exact Or.inr (Or.inl rfl)
        | true =>
          simp only [symnmf_c, Bool.true_eq_false, if_false] at hnone
          exact Or.inr (Or.inr (symnmf_loop_c_none W n k upd MAX_ITER 0 _ hnone))

/-- Witness for C7 at a concrete input. -/
theorem failure_iff_allocation_failure_witness :
    ∃ M, symnmf_c true true (fun _ => true) [[0]] [[1]] 1 1 = some M :=
  (failure_iff_allocation_failure.2.2.2 true true (fun _ => true) [[0]] [[1]] 1 1).1
    (fun _ => rfl) rfl rfl

/-- C10: whenever `update_H` signals failure, the H array it was handed is
returned entirely unchanged: no entry is written before all four temporary
allocations have succeeded. -/
theorem update_H_atomic_on_failure (aWH aHt aHHt aHHtH : Bool) (W H : List (List ℚ))
    (n k : ℕ) (hfail : (update_H_c aWH aHt aHHt aHHtH W H n k).2 = false) :
    (update_H_c aWH aHt aHHt aHHtH W H n k).1 = H := by
  cases aWH <;> cases aHt <;> cases aHHt <;> cases aHHtH <;>
    simp_all [update_H_c]

/-- Witness for C10 at a concrete input. -/
theorem update_H_atomic_on_failure_witness :
    (update_H_c true true true false [[2]] [[3]] 1 1).1 = [[3]] :=
  update_H_atomic_on_failure true true true false [[2]] [[3]] 1 1 rfl

/-! Heap model for the frame property of `symnmf`: matrices live at
addresses in a heap, the caller-owned W and H_init sit at their own
addresses, and the working matrices `result` and `H_prev` are written at
fresh addresses; `symnmf` only ever writes through the latter two. -/

def Heap : Type := ℕ → List (List ℚ)

/-- Write matrix M at address a. -/
def hset (h : Heap) (a : ℕ) (M : List (List ℚ)) : Heap :=
  fun x => if x = a then M else h x

lemma hset_ne (h : Heap) (a : ℕ) (M : List (List ℚ)) (x : ℕ) (hx : x ≠ a) :
    hset h a M x = h x := by
  simp [hset, hx]

/-- The `update_H(W, result, n, k)` call inside the loop: reads the W and
result addresses, writes the updated matrix back through the result
address (success path). -/
def update_H_heap (h : Heap) (wA hA : ℕ) (n k : ℕ) : Heap :=
  hset h hA (update_H_pure (h wA) (h hA) n k)

/-- The `symnmf` main loop on the heap: snapshot result into H_prev,
run the update through the result address, test convergence; a failed
update (flag false) aborts with the heap as the failure path leaves it. -/
def symnmf_heap_loop (wA resA prevA : ℕ) (n k : ℕ) (upd : ℕ → Bool) :
    ℕ → ℕ → Heap → Heap × Bool
  | 0, _, h => (h, true)
  | fuel+1, t, h =>
    let h1 := hset h prevA (copy_matrix (h resA) n k)
    if upd t = false then (h1, false)
    else
      let h2 := update_H_heap h1 wA resA n k
      if calculate_frobenius_norm (h2 resA) (h2 prevA) n k < EPSILON then (h2, true)
      else symnmf_heap_loop wA resA prevA n k upd fuel (t+1) h2

/-- The `symnmf` entry point on the heap: copy the caller's H_init into the
freshly allocated result address, then iterate. -/
def symnmf_heap (h : Heap) (wA hinA resA prevA : ℕ) (n k : ℕ) (upd : ℕ → Bool) :
    Heap × Bool :=
  symnmf_heap_loop wA resA prevA n k upd MAX_ITER 0
    (hset h resA (copy_matrix (h hinA) n k))

lemma symnmf_heap_loop_preserves (wA resA prevA : ℕ) (n k : ℕ) (upd : ℕ → Bool)
    (x : ℕ) (hx1 : x ≠ resA) (hx2 : x ≠ prevA) :
    ∀ fuel t h, (symnmf_heap_loop wA resA prevA n k upd fuel t h).1 x = h x := by
  intro fuel
  induction fuel with
  | zero => intro t h; rfl
  | succ fuel ih =>
    intro t h
    simp only [symnmf_heap_loop]
    have e1 : hset h prevA (copy_matrix (h resA) n k) x = h x := hset_ne _ _ _ _ hx2
    split
    · exact e1
    · have e2 : update_H_heap (hset h prevA (copy_matrix (h resA) n k)) wA resA n k x
          = h x := by
        unfold update_H_heap
        rw [hset_ne _ _ _ _ hx1]
        exact e1
      split
      · exact e2
      · rw [ih (t+1) _]
        exact e2

/-- C9: `symnmf` never writes through the caller-owned W or H_init
addresses, whether the run succeeds or an update allocation fails: the
final heap agrees with the initial heap at both addresses, all writes
going to the privately owned result and H_prev addresses. -/
theorem symnmf_frame_W_Hinit (h : Heap) (wA hinA resA prevA : ℕ) (n k : ℕ)
    (upd : ℕ → Bool) (hrw : resA ≠ wA) (hrh : resA ≠ hinA) (hpw : prevA ≠ wA)
    (hph : prevA ≠ hinA) :
    (symnmf_heap h wA hinA resA prevA n k upd).1 wA = h wA ∧
    (symnmf_heap h wA hinA resA prevA n k upd).1 hinA = h hinA := by
  unfold symnmf_heap
  constructor
  · rw [symnmf_heap_loop_preserves wA resA prevA n k upd wA (Ne.symm hrw) (Ne.symm hpw)]
    exact hset_ne _ _ _ _ (Ne.symm hrw)
  · rw [symnmf_heap_loop_preserves wA resA prevA n k upd hinA (Ne.symm hrh) (Ne.symm hph)]
    exact hset_ne _ _ _ _ (Ne.symm hrh)

/-- Witness for C9 at a concrete input. -/
theorem symnmf_frame_W_Hinit_witness :
    (symnmf_heap (fun _ => [[1]]) 0 1 2 3 1 1 (fun _ => true)).1 0
      = (fun _ => ([[1]] : List (List ℚ))) 0 ∧
    (symnmf_heap (fun _ => [[1]]) 0 1 2 3 1 1 (fun _ => true)).1 1
      = (fun _ => ([[1]] : List (List ℚ))) 1 :=
  symnmf_frame_W_Hinit (fun _ => [[1]]) 0 1 2 3 1 1 (fun _ => true)
    (by decide) (by decide) (by decide) (by decide)

end SymNMF
